import Mathlib

/-!
Shallow embedding of the data-access and filtering core of
`src/app.js` (CellCarto-OvulationSlideseq): the lazy column loader,
the categorical decoder, the sparse gene-expression resolver, the
coordinate-value loader, the filter pipeline and the sampling step.

JavaScript machine details are modelled as follows: JS numbers that the
claims exercise are exact rationals (`ℚ`); `NaN` and `undefined` are
explicit constructors of `JsVal`; a failed `await`ed fetch is an
`Option` that is `none`; out-of-range reads of JS arrays produce
`undefined` (modelled by `List.getD` defaults / `Option`), and
out-of-range writes to typed arrays are silently dropped (modelled by
the total `List.set`, which is a no-op out of range).
-/

/-- Value stored in a row record or returned from a fetched array.
JS `null` never reaches the modelled code paths, so it is not included. -/
inductive JsVal where
  | num (q : ℚ)
  | nan
  | str (s : String)
  | undef
deriving DecidableEq, Repr

/-- Digits of a decimal prefix of a character list: values of the leading
digit characters, and the remaining characters. -/
def takeDigits : List Char → List ℕ × List Char
  | [] => ([], [])
  | c :: cs =>
    if c.isDigit then
      let (ds, r) := takeDigits cs
      ((c.toNat - 48) :: ds, r)
    else ([], c :: cs)

/-- Natural number denoted by a digit list (most significant first). -/
def digitsToNat (ds : List ℕ) : ℕ := ds.foldl (fun a d => 10 * a + d) 0

/-- Leading sign of a character list: `(true, rest)` when negative. -/
def takeSign : List Char → Bool × List Char
  | '-' :: cs => (true, cs)
  | '+' :: cs => (false, cs)
  | cs => (false, cs)

/-- Mantissa `intDigits [. fracDigits]` of a JS decimal literal: returns the
value together with the remaining characters, or `none` when not even one
digit is present. -/
def parseMantissa (cs : List Char) : Option (ℚ × List Char) :=
  let (ip, r1) := takeDigits cs
  match r1 with
  | '.' :: r2 =>
    let (fp, r3) := takeDigits r2
    if ip = [] ∧ fp = [] then none
    else some (((digitsToNat ip : ℚ) + (digitsToNat fp : ℚ) / ((10 : ℚ) ^ fp.length)), r3)
  | _ => if ip = [] then none else some ((digitsToNat ip : ℚ), r1)

/-- Optional exponent part `e[+|-]digits`; when the characters do not form a
well-formed exponent the exponent is not consumed (as in JS `parseFloat`). -/
def parseExponent (cs : List Char) : ℤ × List Char :=
  match cs with
  | 'e' :: r1 =>
    let (neg, r2) := takeSign r1
    let (ds, r3) := takeDigits r2
    if ds = [] then (0, cs)
    else ((if neg then -(digitsToNat ds : ℤ) else (digitsToNat ds : ℤ)), r3)
  | 'E' :: r1 =>
    let (neg, r2) := takeSign r1
    let (ds, r3) := takeDigits r2
    if ds = [] then (0, cs)
    else ((if neg then -(digitsToNat ds : ℤ) else (digitsToNat ds : ℤ)), r3)
  | _ => (0, cs)

/-- Scale a rational by a power of ten. -/
def scalePow10 (q : ℚ) (e : ℤ) : ℚ :=
  if 0 ≤ e then q * (10 : ℚ) ^ e.toNat else q / (10 : ℚ) ^ (-e).toNat

/-- Semantics of JS `parseFloat` on a string: skip leading whitespace, parse
the longest prefix that is a signed decimal literal with optional exponent,
and ignore any trailing characters; `none` models the `NaN` result.
Nonfinite literals such as `Infinity` are outside the modelled scope and
yield `none`. -/
def parseFloatQ (s : String) : Option ℚ :=
  let cs := s.toList.dropWhile (fun c => c = ' ' ∨ c = '\t' ∨ c = '\n' ∨ c = '\r')
  let (neg, r1) := takeSign cs
  match parseMantissa r1 with
  | none => none
  | some (m, r2) =>
    let (e, _) := parseExponent r2
    some (if neg then -(scalePow10 m e) else scalePow10 m e)

/-- Semantics of JS `ToNumber` on a string (the coercion used by relational
operators): the whole trimmed string must be a decimal literal; the empty
string converts to `0`; `none` models `NaN`.  Nonfinite literals are outside
the modelled scope and yield `none`. -/
def jsStringToNumber (s : String) : Option ℚ :=
  let cs := s.toList.dropWhile (fun c => c = ' ' ∨ c = '\t' ∨ c = '\n' ∨ c = '\r')
  let cs := (cs.reverse.dropWhile (fun c => c = ' ' ∨ c = '\t' ∨ c = '\n' ∨ c = '\r')).reverse
  if cs = [] then some 0
  else
    let (neg, r1) := takeSign cs
    match parseMantissa r1 with
    | none => none
    | some (m, r2) =>
      let (e, r3) := parseExponent r2
      if r3 = [] then some (if neg then -(scalePow10 m e) else scalePow10 m e)
      else none

/-- Decoder of a fetched categorical column, from `loadCategoricalColumn`
(src/app.js lines 764-777): `result[i] = categories.data[codes.data[i]]`.
The source performs no bounds check and throws nothing; a code outside the
range of `categories` (negative included) reads `undefined` from the JS
array, modelled as `none`. -/
def loadCategoricalColumn (codes : List ℤ) (categories : List String) : List (Option String) :=
  codes.map (fun c => if c < 0 then none else categories.get? c.toNat)

/-- Extended number used by the running min/max accumulation of
`continuousRanges` (initialised in the source to
`{ min: Infinity, max: -Infinity }`). -/
inductive JNum where
  | posInf
  | negInf
  | fin (q : ℚ)
deriving DecidableEq, Repr

/-- Semantics of JS `Math.min` on the values that reach it here (finite
numbers and the two infinities; `NaN` is excluded by the `isNaN` guard in
the source). -/
def jmin : JNum → JNum → JNum
  | JNum.posInf, b => b
  | JNum.negInf, _ => JNum.negInf
  | JNum.fin q, JNum.posInf => JNum.fin q
  | JNum.fin _, JNum.negInf => JNum.negInf
  | JNum.fin q, JNum.fin r => JNum.fin (min q r)

/-- Semantics of JS `Math.max` on the same values. -/
def jmax : JNum → JNum → JNum
  | JNum.negInf, b => b
  | JNum.posInf, _ => JNum.posInf
  | JNum.fin q, JNum.negInf => JNum.fin q
  | JNum.fin _, JNum.posInf => JNum.posInf
  | JNum.fin q, JNum.fin r => JNum.fin (max q r)

/-- Row record of `allData`: a mapping from attribute name to value, with
`undef` for attributes that were never assigned. -/
def Row : Type := String → JsVal

/-- Metadata stored per obs column in `columnMetadata`:
`{ type: 'categorical'|'continuous', encodingType, path }` (the path plays
no role in the modelled control flow). -/
structure ColMeta where
  ctype : String
  encodingType : String
deriving DecidableEq, Repr

/-- Error that can escape a modelled function; `referenceError` stands for
the JS `ReferenceError` raised when an out-of-scope binding is read. -/
inductive JsError where
  | referenceError
deriving DecidableEq, Repr

/-- Module-level mutable state touched by `ensureColumnLoaded`:
`loadedColumns`, `allData`, `continuousRanges` and `attributeValues`.
The JS `Set` of loaded columns and the per-column distinct-value `Set` are
modelled as duplicate-free lists in insertion order. -/
structure ObsState where
  loadedColumns : List String
  allData : List Row
  continuousRanges : String → Option (JNum × JNum)
  attributeValues : String → Option (List String)

/-- Assignment `allData[i][colName] = v`; rows other than `i` and
attributes other than `colName` are untouched. -/
def updRow (rows : List Row) (i : ℕ) (col : String) (v : JsVal) : List Row :=
  rows.set i (Function.update (rows.getD i (fun _ => JsVal.undef)) col v)

/-- Numeric parse step of the loader:
`typeof rawVal === 'number' ? rawVal : parseFloat(rawVal)`.
`parseFloat(undefined)` coerces the argument to the string `"undefined"`
and yields `NaN`. -/
def toJsNumberVal : JsVal → JsVal
  | JsVal.num q => JsVal.num q
  | JsVal.nan => JsVal.nan
  | JsVal.str s =>
    match parseFloatQ s with
    | some q => JsVal.num q
    | none => JsVal.nan
  | JsVal.undef => JsVal.nan

/-- String conversion `String(x || '')` used by the categorical branch of
the loader: falsy values (`0`, `NaN`, `''`, `undefined`) become the empty
string.  The decimal rendering of a non-zero JS number is approximated by
the standard rational rendering; no claim evaluates this case. -/
def jsDisplayString : JsVal → String
  | JsVal.str s => s
  | JsVal.num q => if q = 0 then "" else toString q
  | JsVal.nan => ""
  | JsVal.undef => ""

/-- Numeric processing loop of `ensureColumnLoaded` (src/app.js lines
837-845): for each row index, parse the raw value, store it in the row
record, and feed non-`NaN` values into the running min/max. -/
def processNumericLoop (col : String) (values : List JsVal) :
    List ℕ → List Row × JNum × JNum → List Row × JNum × JNum
  | [], acc => acc
  | i :: rest, (rows, mn, mx) =>
    let v := toJsNumberVal (values.getD i JsVal.undef)
    let rows' := updRow rows i col v
    match v with
    | JsVal.num q =>
      processNumericLoop col values rest (rows', jmin mn (JNum.fin q), jmax mx (JNum.fin q))
    | _ => processNumericLoop col values rest (rows', mn, mx)

/-- Categorical processing loop of `ensureColumnLoaded` (src/app.js lines
854-860): store the string value in the row record and add non-empty
values to the distinct-value set (insertion order, no duplicates). -/
def processCatLoop (col : String) (values : List JsVal) :
    List ℕ → List Row × List String → List Row × List String
  | [], acc => acc
  | i :: rest, (rows, attrs) =>
    let s := jsDisplayString (values.getD i JsVal.undef)
    let rows' := updRow rows i col (JsVal.str s)
    let attrs' := if s ≠ "" ∧ ¬ attrs.contains s then attrs ++ [s] else attrs
    processCatLoop col values rest (rows', attrs')

/-- Addition to the `loadedColumns` JS `Set`. -/
def addLoaded (ls : List String) (col : String) : List String :=
  if ls.contains col then ls else ls ++ [col]

/-- Shared value-processing part of `ensureColumnLoaded` (src/app.js lines
829-864): classify by `isNumericData`, loop over all `nCells` rows
(out-of-range reads of `values` yield `undefined`), and mark the column
loaded. -/
def processValues (col : String) (isNumericData : Bool) (values : List JsVal)
    (st : ObsState) : ObsState :=
  let nCells := st.allData.length
  if isNumericData then
    let r0 := (st.continuousRanges col).getD (JNum.posInf, JNum.negInf)
    let res := processNumericLoop col values (List.range nCells) (st.allData, r0.1, r0.2)
    { st with
      allData := res.1
      continuousRanges := Function.update st.continuousRanges col (some (res.2.1, res.2.2))
      loadedColumns := addLoaded st.loadedColumns col }
  else
    let a0 := (st.attributeValues col).getD []
    let res := processCatLoop col values (List.range nCells) (st.allData, a0)
    { st with
      allData := res.1
      attributeValues := Function.update st.attributeValues col (some res.2)
      loadedColumns := addLoaded st.loadedColumns col }

/-- Lazy loader `ensureColumnLoaded` (src/app.js lines 796-873).
Fetches are modelled as environment functions: `fetchCat col` is the result
of `loadCategoricalColumn(zarrRoot, 'obs/' + col)` (`none` when that await
rejects) and `fetchArr col` is `Array.from(colData.data)` for the plain
array path (`none` when `loadZarrArray` rejects).

The source declares `const isNumericData` inside the `try` block; the
`catch` block (lines 865-872) reads `isNumericData` again, where that
binding is out of scope.  With at least one row, the first evaluation of
the loop body in the catch therefore throws a `ReferenceError` before any
default is assigned and before the column is marked loaded; with zero rows
the loop body never runs and the catch completes, marking the column
loaded.  The catch is reachable only from the categorical fetch, because a
failing plain-array fetch is already recovered by the inner catch (lines
822-826), which substitutes a default-filled `values`. -/
def ensureColumnLoaded (metaOf : String → Option ColMeta)
    (fetchCat : String → Option (List JsVal))
    (fetchArr : String → Option (List JsVal))
    (st : ObsState) (colName : String) : Except JsError ObsState :=
  if st.loadedColumns.contains colName then Except.ok st
  else
    match metaOf colName with
    | none => Except.ok st
    | some m =>
      let nCells := st.allData.length
      let isNumericData := m.ctype = "continuous"
      if m.encodingType = "categorical" then
        match fetchCat colName with
        | some values => Except.ok (processValues colName isNumericData values st)
        | none =>
          if nCells = 0 then
            Except.ok { st with loadedColumns := addLoaded st.loadedColumns colName }
          else Except.error JsError.referenceError
      else
        let values :=
          match fetchArr colName with
          | some vs => vs
          | none =>
            List.replicate nCells (if isNumericData then JsVal.num 0 else JsVal.str "")
        Except.ok (processValues colName isNumericData values st)

/-- Sparse matrix state used by `getGeneExpression`: the gene names and
row count of `sparseMatrix`, the full `indptr` array (loaded once), and
the backing `indices` / `data` arrays of the store, of which only slices
are ever fetched. -/
structure SparseMatrixHandle where
  geneNames : List String
  rowCount : ℕ
  indptr : List ℕ
  indices : List ℕ
  data : List ℚ

/-- Scatter loop of `getGeneExpression` (src/app.js lines 1333-1336):
`result[cellIdx] = geneData.data[i]`.  The result is a `Float32Array`,
whose out-of-range writes are silently dropped; `List.set` models that. -/
def scatterExpr (res : List ℚ) (pairs : List (ℕ × ℚ)) : List ℚ :=
  pairs.foldl (fun r p => r.set p.1 p.2) res

/-- Sparse gene-expression resolver `getGeneExpression` (src/app.js lines
1285-1344).  Returns `none` for an unknown gene (`indexOf === -1`).
Otherwise returns the dense result vector together with the list of
half-open slice ranges fetched from the `indices` and `data` arrays, so
that "no further fetch" is an inspectable fact: the guard `end > start`
fetches the two slices only when the gene has non-zero entries.  Reads of
`indptr` outside its range yield `undefined` in JS and make the guard
false; `List.getD` with default `0` gives the same guard outcome. -/
def getGeneExpression (m : SparseMatrixHandle) (geneName : String) :
    Option (List ℚ × List (ℕ × ℕ)) :=
  match m.geneNames.indexOf? geneName with
  | none => none
  | some geneIdx =>
    let nCells := m.rowCount
    let s := m.indptr.getD geneIdx 0
    let e := m.indptr.getD (geneIdx + 1) 0
    if s < e then
      let geneIndices := (m.indices.drop s).take (e - s)
      let geneData := (m.data.drop s).take (e - s)
      let res := scatterExpr (List.replicate nCells 0) (geneIndices.zip geneData)
      some (res, [(s, e), (s, e)])
    else
      some (List.replicate nCells 0, [])

/-- Coordinate source descriptor as built by `discoverCoordinateSources`:
`{ source: 'obs'|'obsm', path, embedding, columnIndex, columnName }`. -/
structure CoordSource where
  source : String
  path : String
  embedding : String
  columnIndex : ℕ
  columnName : Option String

/-- Chunk-assembly loop of `loadCoordinateValues` (src/app.js lines
1240-1251): starting from an empty result, fetch `colIdx.0`, `colIdx.1`,
... and concatenate, stopping when the result reaches `nCells` elements or
a chunk is missing.  The JS `while` loop has no iteration bound; `fuel`
makes the recursion structural and `nCells + 1` iterations suffice
whenever every available chunk is non-empty (an empty chunk would loop
forever in JS as well). -/
def chunkLoop (fetchChunk : ℕ → Option (List ℚ)) (nCells : ℕ) :
    ℕ → ℕ → List ℚ → List ℚ
  | 0, _, acc => acc
  | fuel + 1, k, acc =>
    if nCells ≤ acc.length then acc
    else
      match fetchChunk k with
      | some c => chunkLoop fetchChunk nCells fuel (k + 1) (acc ++ c)
      | none => acc

/-- Zero-padding or truncation of an assembled list to a target length
(the recovery policy at src/app.js lines 1253-1262; an entirely empty
assembly reaches line 1264-1267 and also yields all zeros). -/
def padToLength (l : List ℚ) (n : ℕ) : List ℚ :=
  if n ≤ l.length then l.take n else l ++ List.replicate (n - l.length) 0

/-- Coordinate-value loader `loadCoordinateValues` (src/app.js lines
1185-1275).  The store is modelled by four fetch functions, each `none`
when the corresponding read throws: `fetchObs path` for `obs/<path>`;
`fetchByName emb col` for the named-column array `obsm/<emb>/<col>`;
`fetch2D emb colIdx` for the sliced column `colIdx` of `obsm/<emb>` when
that node opens as a 2D array (`none` also when the node is not 2D, which
falls through to chunk loading in the source); `fetchChunk emb colIdx k`
for the chunk file `obsm/<emb>/<colIdx>.<k>`. -/
def loadCoordinateValues (fetchObs : String → Option (List ℚ))
    (fetchByName : String → String → Option (List ℚ))
    (fetch2D : String → ℕ → Option (List ℚ))
    (fetchChunk : String → ℕ → ℕ → Option (List ℚ))
    (cs : CoordSource) (nCells : ℕ) : List ℚ :=
  if cs.source = "obs" then
    match fetchObs cs.path with
    | some d => d
    | none => List.replicate nCells 0
  else if cs.source = "obsm" then
    let byName : Option (List ℚ) :=
      match cs.columnName with
      | some cn => fetchByName cs.embedding cn
      | none => none
    match byName with
    | some d => d
    | none =>
      match fetch2D cs.embedding cs.columnIndex with
      | some d => d
      | none =>
        let result := chunkLoop (fetchChunk cs.embedding cs.columnIndex) nCells (nCells + 1) 0 []
        if nCells ≤ result.length then result.take nCells
        else if 0 < result.length then result ++ List.replicate (nCells - result.length) 0
        else List.replicate nCells 0
  else List.replicate nCells 0

/-- Filter kind stored in `filter.type` (`'continuous'` or
`'categorical'`); a `null` type is `none` in the surrounding option. -/
inductive FKind where
  | continuous
  | categorical
deriving DecidableEq, Repr

/-- Filter object of `activeFilters`:
`{ attribute, type, range: {min,max} | null, values: Set | null }`.
The JS field `attribute` is spelled `attr` here because `attribute` is a
keyword; `none` in `attr` stands for any falsy attribute (null, undefined
or the empty string); the `values` set is a duplicate-free list. -/
structure JsFilter where
  attr : Option String
  ftype : Option FKind
  range : Option (ℚ × ℚ)
  values : Option (List String)
deriving DecidableEq, Repr

/-- Continuous membership test of `updateFilter` (src/app.js line 2836):
`value !== null && value !== undefined && value >= minVal && value <= maxVal`.
`NaN` fails both comparisons; a string operand is coerced with JS
`ToNumber`. -/
def contTest (mn mx : ℚ) : JsVal → Bool
  | JsVal.num q => decide (mn ≤ q) && decide (q ≤ mx)
  | JsVal.nan => false
  | JsVal.undef => false
  | JsVal.str s =>
    match jsStringToNumber s with
    | some q => decide (mn ≤ q) && decide (q ≤ mx)
    | none => false

/-- Categorical membership test of `updateFilter` (src/app.js line 2845):
`filter.values.has(point[filter.attribute] || '')`.  Falsy values fall back
to the empty string; a non-zero number is never a member of a set of
strings. -/
def catTest (sel : List String) : JsVal → Bool
  | JsVal.str s => sel.contains s
  | JsVal.undef => sel.contains ""
  | JsVal.nan => sel.contains ""
  | JsVal.num q => if q = 0 then sel.contains "" else false

/-- Single step of the filter loop (src/app.js lines 2819-2857): a filter
without attribute or type is skipped; a continuous filter with a range
keeps the indices passing `contTest`; a categorical filter with a
non-empty selected set keeps the indices passing `catTest`; anything else
is skipped as invalid. -/
def applyFilter (rows : List Row) (f : JsFilter) (cand : List ℕ) : List ℕ :=
  match f.attr, f.ftype with
  | some a, some FKind.continuous =>
    match f.range with
    | some (mn, mx) =>
      cand.filter (fun i => contTest mn mx ((rows.getD i (fun _ => JsVal.undef)) a))
    | none => cand
  | some a, some FKind.categorical =>
    match f.values with
    | some sel =>
      if sel.isEmpty then cand
      else cand.filter (fun i => catTest sel ((rows.getD i (fun _ => JsVal.undef)) a))
    | none => cand
  | _, _ => cand

/-- Filter recomputation `updateFilter` (src/app.js lines 2792-2866),
restricted to its pure part: the recomputation of `visibleIndices` from
`allData` and `activeFilters`.  The source first awaits
`ensureColumnsLoaded` for the referenced attributes (the caller-side
loading obligation of the spec) and afterwards rebuilds the point cloud;
neither changes the computed index list.  With no active filters all row
indices are visible; otherwise the filters are applied in list order to
the full index range. -/
def updateFilter (rows : List Row) (filters : List JsFilter) : List ℕ :=
  if filters.isEmpty then List.range rows.length
  else filters.foldl (fun cand f => applyFilter rows f cand) (List.range rows.length)

/-- Initialisation of `visibleIndices` in `loadData` (src/app.js lines
1632-1636): all row indices in order. -/
def initVisibleIndices (nCells : ℕ) : List ℕ := List.range nCells

/-- Swap of two positions of a JS array by destructuring assignment
(src/app.js line 2394): both old values are read first, then written.
In the modelled use both positions are in range; `List.set` and
`List.getD` make the definition total. -/
def swapL (l : List ℕ) (i j : ℕ) : List ℕ :=
  (l.set i (l.getD j 0)).set j (l.getD i 0)

/-- Partial Fisher-Yates loop of `createPointCloud` (src/app.js lines
2390-2395): for `i` from `0` while `i < targetCount`, swap position `i`
with position `i + rand i`, where `rand i` models
`Math.floor(Math.random() * (length - i))`.  The fuel argument counts the
remaining iterations. -/
def shuffleLoop (rand : ℕ → ℕ) : ℕ → ℕ → List ℕ → List ℕ
  | 0, _, l => l
  | fuel + 1, i, l => shuffleLoop rand fuel (i + 1) (swapL l i (i + rand i))

/-- Sampling step of `createPointCloud` (src/app.js lines 2371-2399).
`targetCount = min(floor(visibleCount * sampleRate), maxPoints)`; when the
target covers all visible indices they are returned unchanged, otherwise
the first `targetCount` positions are partially shuffled and taken.  JS
`Math.floor` on the (clamped, hence finite and non-negative) product is
modelled by the rational floor, with negative values truncated to `0` by
`Int.toNat` exactly as a negative JS target would produce an empty
`slice`. -/
def sampleIndices (visible : List ℕ) (sampleRate : ℚ) (maxPoints : ℕ)
    (rand : ℕ → ℕ) : List ℕ :=
  let visibleCount := visible.length
  let targetCount := min (Int.toNat ⌊(visibleCount : ℚ) * sampleRate⌋) maxPoints
  if visibleCount ≤ targetCount then visible
  else (shuffleLoop rand targetCount 0 visible).take targetCount

/-- Retention predicate of a single filter on a single row index, read off
the branches of `applyFilter`; inert filters retain everything. -/
def fPred (rows : List Row) (f : JsFilter) (i : ℕ) : Bool :=
  match f.attr, f.ftype with
  | some a, some FKind.continuous =>
    match f.range with
    | some (mn, mx) => contTest mn mx ((rows.getD i (fun _ => JsVal.undef)) a)
    | none => true
  | some a, some FKind.categorical =>
    match f.values with
    | some sel =>
      if sel.isEmpty then true
      else catTest sel ((rows.getD i (fun _ => JsVal.undef)) a)
    | none => true
  | _, _ => true

theorem applyFilter_eq_filter (rows : List Row) (f : JsFilter) (cand : List ℕ) :
    applyFilter rows f cand = cand.filter (fun i => fPred rows f i) := by
  obtain ⟨oa, ot, orng, ovals⟩ := f
  cases oa with
  | none => simp [applyFilter, fPred, List.filter_true]
  | some a =>
    cases ot with
    | none => simp [applyFilter, fPred, List.filter_true]
    | some t =>
      cases t with
      | continuous =>
        cases orng with
        | none => simp [applyFilter, fPred, List.filter_true]
        | some r => cases r with | mk mn mx => simp [applyFilter, fPred]
      | categorical =>
        cases ovals with
        | none => simp [applyFilter, fPred, List.filter_true]
        | some sel =>
          by_cases h : sel.isEmpty <;> simp [applyFilter, fPred, h, List.filter_true]

theorem foldl_applyFilter (rows : List Row) :
    ∀ (L : List JsFilter) (cand : List ℕ),
      L.foldl (fun c f => applyFilter rows f c) cand
        = cand.filter (fun i => L.all (fun f => fPred rows f i)) := by
  intro L
  induction L with
  | nil => intro cand; simp [List.filter_true]
  | cons f rest ih =>
    intro cand
    have h1 : (f :: rest).foldl (fun c g => applyFilter rows g c) cand
        = rest.foldl (fun c g => applyFilter rows g c) (applyFilter rows f cand) := rfl
    rw [h1, ih, applyFilter_eq_filter, List.filter_filter]
    apply List.filter_congr
    intro i _
    simp [List.all_cons, Bool.and_comm]

theorem updateFilter_eq_filter (rows : List Row) (L : List JsFilter) :
    updateFilter rows L
      = (List.range rows.length).filter (fun i => L.all (fun f => fPred rows f i)) := by
  by_cases h : L.isEmpty
  · have : L = [] := List.isEmpty_iff.mp h
    subst this
    simp [updateFilter, List.filter_true]
  · simp only [updateFilter, h, Bool.false_eq_true, if_false]
    exact foldl_applyFilter rows L _

theorem all_eq_of_perm {α : Type} (p : α → Bool) {L L' : List α} (h : L.Perm L') :
    L.all p = L'.all p := by
  induction h with
  | nil => rfl
  | cons x _ ih => simp [List.all_cons, ih]
  | swap x y l => cases hx : p x <;> cases hy : p y <;> simp [List.all_cons, hx, hy]
  | trans _ _ ih1 ih2 => rw [ih1, ih2]

/-- C3. For every row table and every list of predicates, filter
recomputation is order-independent: permuting the filter list leaves the
computed visible index list (hence the visible index set) unchanged. -/
theorem updateFilter_order_independent (rows : List Row) (L L' : List JsFilter)
    (h : L.Perm L') : updateFilter rows L = updateFilter rows L' := by
  rw [updateFilter_eq_filter, updateFilter_eq_filter]
  have hp : (fun i => L.all (fun f => fPred rows f i))
      = (fun i => L'.all (fun f => fPred rows f i)) := by
    funext i
    exact all_eq_of_perm (fun f => fPred rows f i) h
  rw [hp]

/-- Row with a numeric attribute `n` and a categorical attribute `c`. -/
def mkMixedRow (q : ℚ) (s : String) : Row :=
  fun a => if a = "n" then JsVal.num q else if a = "c" then JsVal.str s else JsVal.undef

def rowsC3 : List Row := [mkMixedRow 1 "A", mkMixedRow 20 "A", mkMixedRow 2 "B"]

def fC3cont : JsFilter := ⟨some "n", some FKind.continuous, some (0, 10), none⟩

def fC3cat : JsFilter := ⟨some "c", some FKind.categorical, none, some ["A"]⟩

/-- Witness for C3: swapping a continuous and a categorical filter yields
the same visible index list on a concrete row table. -/
theorem updateFilter_order_independent_witness :
    updateFilter rowsC3 [fC3cont, fC3cat] = updateFilter rowsC3 [fC3cat, fC3cont] ∧
      updateFilter rowsC3 [fC3cont, fC3cat] = [0] :=
  ⟨updateFilter_order_independent rowsC3 [fC3cont, fC3cat] [fC3cat, fC3cont]
      (List.Perm.swap fC3cat fC3cont []),
    by decide⟩

/-- Value shapes a loaded numeric column can hold in a row record:
a number, `NaN`, or `undefined`;  never a string. -/
def isNumLike : JsVal → Bool
  | JsVal.str _ => false
  | _ => true

theorem contTest_eq_true_iff (mn mx : ℚ) (v : JsVal) (hv : isNumLike v = true) :
    contTest mn mx v = true ↔ ∃ q, v = JsVal.num q ∧ mn ≤ q ∧ q ≤ mx := by
  cases v with
  | num q => simp [contTest]
  | nan => simp [contTest]
  | str s => simp [isNumLike] at hv
  | undef => simp [contTest]

/-- C4. With a configured continuous filter of range `[mn, mx]`, the
recomputed visible set contains exactly the indices of rows whose loaded
value is a number `q` with `mn ≤ q ≤ mx` (inclusive at both ends); rows
whose value is missing (`undefined`) or `NaN` are excluded.  The
hypothesis restricts the attribute to value shapes a loaded numeric column
produces. -/
theorem updateFilter_continuous_inclusive (rows : List Row) (a : String) (mn mx : ℚ)
    (hnum : ∀ r ∈ rows, isNumLike (r a) = true) :
    ∀ i, i ∈ updateFilter rows [⟨some a, some FKind.continuous, some (mn, mx), none⟩]
      ↔ i < rows.length ∧
        ∃ q, (rows.getD i (fun _ => JsVal.undef)) a = JsVal.num q ∧ mn ≤ q ∧ q ≤ mx := by
  intro i
  rw [updateFilter_eq_filter, List.mem_filter, List.mem_range]
  constructor
  · rintro ⟨hi, hall⟩
    refine ⟨hi, ?_⟩
    simp only [List.all_cons, List.all_nil, Bool.and_true] at hall
    have hv : isNumLike ((rows.getD i (fun _ => JsVal.undef)) a) = true := by
      have : rows.getD i (fun _ => JsVal.undef) ∈ rows := by
        rw [List.getD_eq_getElem _ _ hi]
        exact List.getElem_mem hi
      exact hnum _ this
    exact (contTest_eq_true_iff mn mx _ hv).mp hall
  · rintro ⟨hi, q, hq, h1, h2⟩
    refine ⟨hi, ?_⟩
    simp only [List.all_cons, List.all_nil, Bool.and_true]
    show contTest mn mx ((rows.getD i (fun _ => JsVal.undef)) a) = true
    rw [hq]
    simp [contTest, h1, h2]

/-- Row table of the C4 witness: a single numeric attribute `v` with the
values `[1,2,3,4,5,6]` of the spec example. -/
def mkNumRow (q : ℚ) : Row := fun a => if a = "v" then JsVal.num q else JsVal.undef

def rowsC4 : List Row := [mkNumRow 1, mkNumRow 2, mkNumRow 3, mkNumRow 4, mkNumRow 5, mkNumRow 6]

def fC4 : JsFilter := ⟨some "v", some FKind.continuous, some (2, 5), none⟩

/-- Witness for C4: the spec example — range `[2,5]` over values
`[1,2,3,4,5,6]` keeps exactly indices `1,2,3,4`. -/
theorem updateFilter_continuous_inclusive_witness :
    (1 ∈ updateFilter rowsC4 [fC4]) ∧ updateFilter rowsC4 [fC4] = [1, 2, 3, 4] :=
  ⟨(updateFilter_continuous_inclusive rowsC4 "v" 2 5 (by decide) 1).mpr
      ⟨by decide, 2, by decide, by norm_num, by norm_num⟩,
    by decide⟩

/-- Row table of the C5 example: one categorical attribute `c`. -/
def mkCatRow (s : String) : Row := fun a => if a = "c" then JsVal.str s else JsVal.undef

def fC5empty : JsFilter := ⟨some "c", some FKind.categorical, none, some []⟩

/-- Counterexample to C5 as stated: a categorical filter whose selected set
is empty is treated as invalid by `updateFilter` (the guard
`filter.values.size > 0` at src/app.js line 2841 fails) and is skipped, so
every row stays visible; the claim demands that no row be retained.  On a
one-row table with value `"A"` and `S = {}` the visible list is `[0]`, not
`[]`. -/
theorem updateFilter_empty_selection_retains_all :
    updateFilter [mkCatRow "A"] [fC5empty] = [0] ∧ ¬ updateFilter [mkCatRow "A"] [fC5empty] = [] := by
  constructor <;> decide

/-- Value shapes a loaded categorical column can hold in a row record:
a string, or `undefined` before any load wrote the attribute. -/
def isStrLike : JsVal → Bool
  | JsVal.str _ => true
  | JsVal.undef => true
  | _ => false

/-- String the categorical test compares against:
`point[attr] || ''` for string or missing values. -/
def strOf : JsVal → String
  | JsVal.str s => s
  | _ => ""

/-- C5 (amended).  With a configured categorical filter of selected set
`S`, recomputation keeps exactly the indices whose string value (the empty
string standing in for a missing value) is a member of `S` — in
particular a row with value `""` is kept only when `""` is explicitly in
`S` — provided `S` is non-empty; a filter with an empty `S` is skipped as
invalid and every row stays visible (this last point is where the original
claim fails). -/
theorem updateFilter_categorical_membership (rows : List Row) (a : String)
    (sel : List String) (hstr : ∀ r ∈ rows, isStrLike (r a) = true) :
    (sel ≠ [] →
      ∀ i, i ∈ updateFilter rows [⟨some a, some FKind.categorical, none, some sel⟩]
        ↔ i < rows.length ∧
          sel.contains (strOf ((rows.getD i (fun _ => JsVal.undef)) a)) = true) ∧
    (sel = [] →
      updateFilter rows [⟨some a, some FKind.categorical, none, some sel⟩]
        = List.range rows.length) := by
  constructor
  · intro hne i
    rw [updateFilter_eq_filter, List.mem_filter, List.mem_range]
    have hemp : sel.isEmpty = false := by
      cases sel with
      | nil => exact absurd rfl hne
      | cons x xs => rfl
    constructor
    · rintro ⟨hi, hall⟩
      refine ⟨hi, ?_⟩
      simp only [List.all_cons, List.all_nil, Bool.and_true, fPred, hemp] at hall
      have hv : isStrLike ((rows.getD i (fun _ => JsVal.undef)) a) = true := by
        have : rows.getD i (fun _ => JsVal.undef) ∈ rows := by
          rw [List.getD_eq_getElem _ _ hi]
          exact List.getElem_mem hi
        exact hstr _ this
      revert hall
      cases hval : (rows.getD i (fun _ => JsVal.undef)) a with
      | str s => intro hall; simpa [catTest, strOf] using hall
      | undef => intro hall; simpa [catTest, strOf] using hall
      | num q => rw [hval] at hv; simp [isStrLike] at hv
      | nan => rw [hval] at hv; simp [isStrLike] at hv
    · rintro ⟨hi, hmem⟩
      refine ⟨hi, ?_⟩
      simp only [List.all_cons, List.all_nil, Bool.and_true, fPred, hemp,
        Bool.false_eq_true, if_false]
      cases hval : (rows.getD i (fun _ => JsVal.undef)) a with
      | str s => rw [hval] at hmem; simpa [catTest] using hmem
      | undef => rw [hval] at hmem; simpa [catTest, strOf] using hmem
      | num q =>
        have hv : isStrLike ((rows.getD i (fun _ => JsVal.undef)) a) = true := by
          have : rows.getD i (fun _ => JsVal.undef) ∈ rows := by
            rw [List.getD_eq_getElem _ _ hi]
            exact List.getElem_mem hi
          exact hstr _ this
        rw [hval] at hv
        simp [isStrLike] at hv
      | nan =>
        have hv : isStrLike ((rows.getD i (fun _ => JsVal.undef)) a) = true := by
          have : rows.getD i (fun _ => JsVal.undef) ∈ rows := by
            rw [List.getD_eq_getElem _ _ hi]
            exact List.getElem_mem hi
          exact hstr _ this
        rw [hval] at hv
        simp [isStrLike] at hv
  · intro hsel
    subst hsel
    rw [updateFilter_eq_filter]
    have : ∀ i ∈ List.range rows.length,
        ([(⟨some a, some FKind.categorical, none, some []⟩ : JsFilter)].all
          (fun f => fPred rows f i)) = (fun _ : ℕ => true) i := by
      intro i _
      simp [fPred]
    rw [List.filter_congr this, List.filter_true]

def rowsC5 : List Row := [mkCatRow "A", mkCatRow "C", mkCatRow "B", mkCatRow "A"]

def fC5 : JsFilter := ⟨some "c", some FKind.categorical, none, some ["A", "B"]⟩

/-- Witness for C5 (amended): the spec example — `S = {A,B}` over values
`[A,C,B,A]` keeps exactly indices `0,2,3`. -/
theorem updateFilter_categorical_membership_witness :
    (0 ∈ updateFilter rowsC5 [fC5]) ∧ updateFilter rowsC5 [fC5] = [0, 2, 3] :=
  ⟨((updateFilter_categorical_membership rowsC5 "c" ["A", "B"] (by decide)).1
      (by decide) 0).mpr ⟨by decide, by decide⟩,
    by decide⟩

/-- C9. After every run of `updateFilter` — over any row table and any
filter list — the visible index list is strictly increasing and every
element is below the number of rows; the initial `visibleIndices` built in
`loadData` satisfies the same invariant.  Hence the Visible Index Set is
always a duplicate-free subset of the valid row indices. -/
theorem updateFilter_visible_indices_sorted_bounded :
    ∀ (rows : List Row) (filters : List JsFilter),
      List.Pairwise (· < ·) (updateFilter rows filters) ∧
      (∀ i ∈ updateFilter rows filters, i < rows.length) ∧
      List.Pairwise (· < ·) (initVisibleIndices rows.length) ∧
      (∀ i ∈ initVisibleIndices rows.length, i < rows.length) := by
  intro rows filters
  refine ⟨?_, ?_, ?_, ?_⟩
  · rw [updateFilter_eq_filter]
    exact List.Pairwise.sublist (List.filter_sublist _) (List.pairwise_lt_range _)
  · intro i hi
    rw [updateFilter_eq_filter] at hi
    exact List.mem_range.mp (List.mem_filter.mp hi).1
  · exact List.pairwise_lt_range _
  · intro i hi
    exact List.mem_range.mp hi

theorem scatterExpr_length (pairs : List (ℕ × ℚ)) :
    ∀ res : List ℚ, (scatterExpr res pairs).length = res.length := by
  induction pairs with
  | nil => intro res; rfl
  | cons p rest ih =>
    intro res
    show (scatterExpr (res.set p.1 p.2) rest).length = res.length
    rw [ih, List.length_set]

theorem getD_set_ne {α : Type} (l : List α) (i c : ℕ) (v d : α) (h : i ≠ c) :
    (l.set i v).getD c d = l.getD c d := by
  rw [List.getD_eq_getElem?_getD, List.getD_eq_getElem?_getD, List.getElem?_set_ne h]

theorem getD_set_self {α : Type} (l : List α) (c : ℕ) (v d : α) (h : c < l.length) :
    (l.set c v).getD c d = v := by
  rw [List.getD_eq_getElem?_getD, List.getElem?_set_self h]
  rfl

theorem scatterExpr_getD_not_mem (c : ℕ) (pairs : List (ℕ × ℚ))
    (hc : ∀ p ∈ pairs, p.1 ≠ c) :
    ∀ res : List ℚ, (scatterExpr res pairs).getD c 0 = res.getD c 0 := by
  induction pairs with
  | nil => intro res; rfl
  | cons p rest ih =>
    intro res
    show (scatterExpr (res.set p.1 p.2) rest).getD c 0 = res.getD c 0
    rw [ih (fun q hq => hc q (List.mem_cons_of_mem p hq)),
      getD_set_ne _ _ _ _ _ (hc p (List.mem_cons_self p rest))]

theorem scatterExpr_getD_mem (c : ℕ) (v : ℚ) (pairs : List (ℕ × ℚ))
    (hnd : (pairs.map Prod.fst).Nodup) (hmem : (c, v) ∈ pairs) :
    ∀ res : List ℚ, c < res.length → (scatterExpr res pairs).getD c 0 = v := by
  induction pairs with
  | nil => intro res _; exact absurd hmem (List.not_mem_nil _)
  | cons p rest ih =>
    intro res hc
    rw [List.map_cons, List.nodup_cons] at hnd
    rcases List.mem_cons.mp hmem with heq | hrest
    · subst heq
      show (scatterExpr (res.set c v) rest).getD c 0 = v
      have hno : ∀ q ∈ rest, q.1 ≠ c := by
        intro q hq hq1
        exact hnd.1 (List.mem_map.mpr ⟨q, hq, hq1⟩)
      rw [scatterExpr_getD_not_mem c rest hno, getD_set_self _ _ _ _ hc]
    · show (scatterExpr (res.set p.1 p.2) rest).getD c 0 = v
      exact ih hnd.2 hrest _ (by rw [List.length_set]; exact hc)

theorem getD_replicate_zero (n c : ℕ) : (List.replicate n (0 : ℚ)).getD c 0 = 0 := by
  rw [List.getD_eq_getElem?_getD, List.getElem?_replicate]
  by_cases h : c < n <;> simp [h]

/-- C1. For a gene present in `geneNames` (found at index `gi`) of a
well-formed CSC matrix — `indptr` long enough, the gene's `indptr` range
within the `indices`/`data` arrays, and the row indices of the gene's
slice duplicate-free and below `rowCount` — `getGeneExpression` returns a
dense vector of length `rowCount` that equals `data[k]` at position
`indices[k]` for every `k` in `[indptr[gi], indptr[gi+1])` and is zero at
every other cell; and when `indptr[gi+1] = indptr[gi]` it performs no
fetch of the `indices` or `data` slices (empty fetch list). -/
theorem getGeneExpression_dense_vector (m : SparseMatrixHandle) (g : String) (gi : ℕ)
    (hg : m.geneNames.indexOf? g = some gi)
    (hse : m.indptr.getD gi 0 ≤ m.indptr.getD (gi + 1) 0)
    (hei : m.indptr.getD (gi + 1) 0 ≤ m.indices.length)
    (hed : m.indptr.getD (gi + 1) 0 ≤ m.data.length)
    (hnd : ((m.indices.drop (m.indptr.getD gi 0)).take
        (m.indptr.getD (gi + 1) 0 - m.indptr.getD gi 0)).Nodup)
    (hbound : ∀ c ∈ (m.indices.drop (m.indptr.getD gi 0)).take
        (m.indptr.getD (gi + 1) 0 - m.indptr.getD gi 0), c < m.rowCount) :
    ∃ res fetches, getGeneExpression m g = some (res, fetches) ∧
      res.length = m.rowCount ∧
      (∀ k, m.indptr.getD gi 0 ≤ k → k < m.indptr.getD (gi + 1) 0 →
        res.getD (m.indices.getD k 0) 0 = m.data.getD k 0) ∧
      (∀ c, c < m.rowCount →
        c ∉ (m.indices.drop (m.indptr.getD gi 0)).take
            (m.indptr.getD (gi + 1) 0 - m.indptr.getD gi 0) →
        res.getD c 0 = 0) ∧
      (m.indptr.getD (gi + 1) 0 = m.indptr.getD gi 0 → fetches = []) := by
  set s := m.indptr.getD gi 0 with hs
  set e := m.indptr.getD (gi + 1) 0 with he
  set idxs := (m.indices.drop s).take (e - s) with hidxs
  set vals := (m.data.drop s).take (e - s) with hvals
  have hlidx : idxs.length = e - s := by
    rw [hidxs, List.length_take, List.length_drop]
    omega
  have hlval : vals.length = e - s := by
    rw [hvals, List.length_take, List.length_drop]
    omega
  by_cases hc : s < e
  · refine ⟨scatterExpr (List.replicate m.rowCount 0) (idxs.zip vals), [(s, e), (s, e)], ?_, ?_, ?_, ?_, ?_⟩
    · simp only [getGeneExpression, hg, ← hs, ← he, ← hidxs, ← hvals, if_pos hc]
    · rw [scatterExpr_length, List.length_replicate]
    · intro k hk1 hk2
      have hkid : k < m.indices.length := lt_of_lt_of_le hk2 hei
      have hkd : k < m.data.length := lt_of_lt_of_le hk2 hed
      have hks : k - s < e - s := by omega
      have hidx_get : idxs[k - s]? = some (m.indices.getD k 0) := by
        rw [hidxs, List.getElem?_take, if_pos hks, List.getElem?_drop]
        have : s + (k - s) = k := by omega
        rw [this, List.getElem?_eq_getElem hkid, List.getD_eq_getElem _ _ hkid]
      have hval_get : vals[k - s]? = some (m.data.getD k 0) := by
        rw [hvals, List.getElem?_take, if_pos hks, List.getElem?_drop]
        have : s + (k - s) = k := by omega
        rw [this, List.getElem?_eq_getElem hkd, List.getD_eq_getElem _ _ hkd]
      have hzip : (idxs.zip vals)[k - s]? = some (m.indices.getD k 0, m.data.getD k 0) := by
        rw [List.getElem?_zip_eq_some]
        exact ⟨hidx_get, hval_get⟩
      have hmem : (m.indices.getD k 0, m.data.getD k 0) ∈ idxs.zip vals := by
        obtain ⟨h, heq⟩ := List.getElem?_eq_some.mp hzip
        exact heq ▸ List.getElem_mem h
      have hmap : (idxs.zip vals).map Prod.fst = idxs :=
        List.map_fst_zip idxs vals (by omega)
      apply scatterExpr_getD_mem _ _ _ (by rw [hmap]; exact hnd) hmem
      rw [List.length_replicate]
      apply hbound
      obtain ⟨h, heq⟩ := List.getElem?_eq_some.mp hidx_get
      exact heq ▸ List.getElem_mem h
    · intro c _ hcnot
      have hmap : (idxs.zip vals).map Prod.fst = idxs :=
        List.map_fst_zip idxs vals (by omega)
      have hno : ∀ p ∈ idxs.zip vals, p.1 ≠ c := by
        intro p hp hpc
        exact hcnot (hpc ▸ hmap ▸ List.mem_map_of_mem Prod.fst hp)
      rw [scatterExpr_getD_not_mem c _ hno, getD_replicate_zero]
    · intro hes
      omega
  · refine ⟨List.replicate m.rowCount 0, [], ?_, ?_, ?_, ?_, ?_⟩
    · simp only [getGeneExpression, hg, ← hs, ← he, if_neg hc]
    · rw [List.length_replicate]
    · intro k hk1 hk2
      omega
    · intro c _ _
      exact getD_replicate_zero _ _
    · intro _
      rfl

/-- Sparse matrix of the C1 witness: one gene with non-zero entries
`1.5` at cell 3 and `2.0` at cell 7 out of 10 cells. -/
def mC1 : SparseMatrixHandle := ⟨["t"], 10, [0, 2], [3, 7], [3 / 2, 2]⟩

/-- Witness for C1: the spec example produces exactly
`[0,0,0,1.5,0,0,0,2.0,0,0]`, fetching one slice pair. -/
theorem getGeneExpression_dense_vector_witness :
    (∃ res fetches, getGeneExpression mC1 "t" = some (res, fetches) ∧
      res.length = mC1.rowCount ∧
      (∀ k, mC1.indptr.getD 0 0 ≤ k → k < mC1.indptr.getD 1 0 →
        res.getD (mC1.indices.getD k 0) 0 = mC1.data.getD k 0) ∧
      (∀ c, c < mC1.rowCount →
        c ∉ (mC1.indices.drop (mC1.indptr.getD 0 0)).take
            (mC1.indptr.getD 1 0 - mC1.indptr.getD 0 0) →
        res.getD c 0 = 0) ∧
      (mC1.indptr.getD 1 0 = mC1.indptr.getD 0 0 → fetches = [])) ∧
    getGeneExpression mC1 "t"
      = some ([0, 0, 0, 3 / 2, 0, 0, 0, 2, 0, 0], [(0, 2), (0, 2)]) :=
  ⟨getGeneExpression_dense_vector mC1 "t" 0 (by decide) (by decide) (by decide)
      (by decide) (by decide) (by decide),
    rfl⟩

/-- Column metadata of the C2 failing input: a categorical column
`cell_type` with categorical encoding. -/
def c2Meta : String → Option ColMeta :=
  fun c => if c = "cell_type" then some ⟨"categorical", "categorical"⟩ else none

/-- Fetch environment of the C2 failing input: every fetch rejects. -/
def c2Fetch : String → Option (List JsVal) := fun _ => none

/-- State of the C2 failing input: two unloaded rows, nothing loaded. -/
def c2State : ObsState :=
  ⟨[], [fun _ => JsVal.undef, fun _ => JsVal.undef], fun _ => none, fun _ => none⟩

/-- C2 is a code bug, exhibited here: for a categorical column whose fetch
fails, the source's catch block (src/app.js lines 865-872) reads
`isNumericData`, a `const` declared inside the `try` block and therefore
out of scope in the catch; evaluating the loop body throws a
`ReferenceError`, so `ensureColumnLoaded` rejects instead of returning
normally, no row receives the default `""`, and the column is never added
to `loadedColumns` (so a later call would fetch again).  The surrounding
comments — "Fill with defaults" and "Mark as loaded to avoid repeated
failures" — state the intended behaviour, which is what the claim
describes. -/
theorem ensureColumnLoaded_catch_raises :
    ensureColumnLoaded c2Meta c2Fetch c2Fetch c2State "cell_type"
      = Except.error JsError.referenceError ∧
    c2State.loadedColumns.contains "cell_type" = false := by
  constructor
  · rfl
  · rfl

theorem jmin_fin_zero_stable (a : JNum) :
    jmin (jmin a (JNum.fin 0)) (JNum.fin 0) = jmin a (JNum.fin 0) := by
  cases a <;> simp [jmin, min_assoc]

theorem jmax_fin_zero_stable (a : JNum) :
    jmax (jmax a (JNum.fin 0)) (JNum.fin 0) = jmax a (JNum.fin 0) := by
  cases a <;> simp [jmax, max_assoc]

theorem updRow_length (rows : List Row) (i : ℕ) (col : String) (v : JsVal) :
    (updRow rows i col v).length = rows.length := by
  rw [updRow, List.length_set]

theorem updRow_getD_self (rows : List Row) (i : ℕ) (col : String) (v : JsVal)
    (h : i < rows.length) :
    ((updRow rows i col v).getD i (fun _ => JsVal.undef)) col = v := by
  rw [updRow, getD_set_self _ _ _ _ h, Function.update_same]

theorem updRow_getD_ne (rows : List Row) (i j : ℕ) (col : String) (v : JsVal)
    (h : i ≠ j) :
    (updRow rows i col v).getD j (fun _ => JsVal.undef)
      = rows.getD j (fun _ => JsVal.undef) := by
  rw [updRow, getD_set_ne _ _ _ _ _ h]

theorem addLoaded_contains (ls : List String) (col : String) :
    (addLoaded ls col).contains col = true := by
  rw [addLoaded]
  by_cases h : ls.contains col
  · rw [if_pos h]; exact h
  · rw [if_neg h]
    rw [List.contains_eq_any_beq]
    simp

/-- Effect of the numeric processing loop when every processed raw value
parses to the number zero (the default-filled recovery path): every
processed in-range row ends with value `0` at the column, other rows are
untouched, and a non-empty index list folds `0` once into the running
min/max. -/
theorem processNumericLoop_const_zero (col : String) (values : List JsVal) :
    ∀ (idxs : List ℕ) (rows : List Row) (mn mx : JNum),
      (∀ i ∈ idxs, toJsNumberVal (values.getD i JsVal.undef) = JsVal.num 0) →
      (processNumericLoop col values idxs (rows, mn, mx)).1.length = rows.length ∧
      (∀ j, ((processNumericLoop col values idxs (rows, mn, mx)).1.getD j
            (fun _ => JsVal.undef)) col
          = if j ∈ idxs ∧ j < rows.length then JsVal.num 0
            else (rows.getD j (fun _ => JsVal.undef)) col) ∧
      (idxs ≠ [] →
        (processNumericLoop col values idxs (rows, mn, mx)).2.1 = jmin mn (JNum.fin 0) ∧
        (processNumericLoop col values idxs (rows, mn, mx)).2.2 = jmax mx (JNum.fin 0)) := by
  intro idxs
  induction idxs with
  | nil =>
    intro rows mn mx _
    refine ⟨rfl, ?_, fun h => absurd rfl h⟩
    intro j
    simp [processNumericLoop]
  | cons i rest ih =>
    intro rows mn mx hv
    have hvi : toJsNumberVal (values.getD i JsVal.undef) = JsVal.num 0 :=
      hv i (List.mem_cons_self i rest)
    have hstep : processNumericLoop col values (i :: rest) (rows, mn, mx)
        = processNumericLoop col values rest
            (updRow rows i col (JsVal.num 0), jmin mn (JNum.fin 0), jmax mx (JNum.fin 0)) := by
      simp only [processNumericLoop]
      rw [hvi]
    have hrest := ih (updRow rows i col (JsVal.num 0)) (jmin mn (JNum.fin 0))
      (jmax mx (JNum.fin 0)) (fun k hk => hv k (List.mem_cons_of_mem i hk))
    rw [hstep]
    refine ⟨by rw [hrest.1, updRow_length], ?_, ?_⟩
    · intro j
      rw [hrest.2.1 j, updRow_length]
      by_cases hjr : j ∈ rest ∧ j < rows.length
      · rw [if_pos hjr, if_pos ⟨List.mem_cons_of_mem i hjr.1, hjr.2⟩]
      · rw [if_neg hjr]
        by_cases hji : j = i
        · subst hji
          by_cases hjl : j < rows.length
          · rw [updRow_getD_self _ _ _ _ hjl, if_pos ⟨List.mem_cons_self j rest, hjl⟩]
          · have hle : rows.length ≤ j := Nat.le_of_not_lt hjl
            rw [if_neg (fun hc => hjl hc.2)]
            rw [updRow, List.set_eq_of_length_le hle]
        · rw [updRow_getD_ne _ _ _ _ _ (fun he => hji he.symm)]
          have : ¬ (j ∈ i :: rest ∧ j < rows.length) := by
            rintro ⟨hm, hl⟩
            rcases List.mem_cons.mp hm with he | hr
            · exact hji he
            · exact hjr ⟨hr, hl⟩
          rw [if_neg this]
    · intro _
      cases hr : rest with
      | nil =>
        subst hr
        exact ⟨rfl, rfl⟩
      | cons r rs =>
        have hne : rest ≠ [] := by rw [hr]; exact List.cons_ne_nil r rs
        rw [← hr]
        constructor
        · rw [(hrest.2.2 hne).1, jmin_fin_zero_stable]
        · rw [(hrest.2.2 hne).2, jmax_fin_zero_stable]

theorem getD_replicate_num_zero (n i : ℕ) :
    (List.replicate n (JsVal.num 0)).getD i JsVal.undef
      = if i < n then JsVal.num 0 else JsVal.undef := by
  rw [List.getD_eq_getElem?_getD, List.getElem?_replicate]
  by_cases h : i < n <;> simp [h]

/-- C10. When the plain-array fetch of a continuous column fails (the
inner catch of `ensureColumnLoaded`), the call succeeds, every row of the
column is filled with the number `0`, the column's fresh continuous range
summary becomes exactly `{min: 0, max: 0}` (the zero defaults feed the
running min/max started at `(Infinity, -Infinity)`), and the column is
recorded as loaded — so the degraded column presents a `[0, 0]` filter
range.  At least one row must exist for the min/max to be fed. -/
theorem ensureColumnLoaded_numeric_failure_defaults
    (metaOf : String → Option ColMeta) (fetchCat fetchArr : String → Option (List JsVal))
    (st : ObsState) (col : String) (enc : String)
    (hmeta : metaOf col = some ⟨"continuous", enc⟩)
    (henc : ¬ enc = "categorical")
    (hfail : fetchArr col = none)
    (hnl : st.loadedColumns.contains col = false)
    (hr : st.continuousRanges col = none)
    (hn : 0 < st.allData.length) :
    ∃ st', ensureColumnLoaded metaOf fetchCat fetchArr st col = Except.ok st' ∧
      st'.continuousRanges col = some (JNum.fin 0, JNum.fin 0) ∧
      (∀ row ∈ st'.allData, row col = JsVal.num 0) ∧
      st'.loadedColumns.contains col = true := by
  have h1 : ensureColumnLoaded metaOf fetchCat fetchArr st col
      = Except.ok (processValues col true
          (List.replicate st.allData.length (JsVal.num 0)) st) := by
    simp only [ensureColumnLoaded, hnl, hmeta, hfail, Bool.false_eq_true, if_false]
    simp [henc]
  set values := List.replicate st.allData.length (JsVal.num 0) with hvalues
  have hloop := processNumericLoop_const_zero col values
    (List.range st.allData.length) st.allData JNum.posInf JNum.negInf
    (by
      intro i hi
      rw [hvalues, getD_replicate_num_zero, if_pos (List.mem_range.mp hi)]
      rfl)
  have hne : List.range st.allData.length ≠ [] := by
    intro hc
    rw [List.range_eq_nil] at hc
    omega
  have h2 : processValues col true values st
      = { st with
          allData := (processNumericLoop col values (List.range st.allData.length)
            (st.allData, JNum.posInf, JNum.negInf)).1
          continuousRanges := Function.update st.continuousRanges col
            (some ((processNumericLoop col values (List.range st.allData.length)
              (st.allData, JNum.posInf, JNum.negInf)).2.1,
              (processNumericLoop col values (List.range st.allData.length)
              (st.allData, JNum.posInf, JNum.negInf)).2.2))
          loadedColumns := addLoaded st.loadedColumns col } := by
    simp only [processValues, hr, if_pos]
    rfl
  refine ⟨processValues col true values st, h1, ?_, ?_, ?_⟩
  · rw [h2]
    show Function.update st.continuousRanges col _ col = _
    rw [Function.update_same, (hloop.2.2 hne).1, (hloop.2.2 hne).2]
    rfl
  · intro row hrow
    rw [h2] at hrow
    simp only at hrow
    obtain ⟨j, hj, hjeq⟩ := List.mem_iff_getElem.mp hrow
    have hjlen : j < st.allData.length := by
      rw [← hloop.1]
      exact hj
    have := hloop.2.1 j
    rw [List.getD_eq_getElem _ _ hj, hjeq,
      if_pos ⟨List.mem_range.mpr hjlen, hjlen⟩] at this
    exact this
  · rw [h2]
    exact addLoaded_contains _ _

/-- Fetch environment of the C10 witness: every fetch rejects. -/
def noFetch : String → Option (List JsVal) := fun _ => none

/-- Column metadata of the C10 witness: a continuous column `score` with
plain array encoding. -/
def c10Meta : String → Option ColMeta :=
  fun c => if c = "score" then some ⟨"continuous", "array"⟩ else none

/-- State of the C10 witness: one unloaded row, nothing loaded. -/
def c10State : ObsState := ⟨[], [fun _ => JsVal.undef], fun _ => none, fun _ => none⟩

/-- Witness for C10: a one-row continuous column whose fetch fails loads
with value `0`, range `{min: 0, max: 0}`, and is marked loaded. -/
theorem ensureColumnLoaded_numeric_failure_defaults_witness :
    ∃ st', ensureColumnLoaded c10Meta noFetch noFetch c10State "score" = Except.ok st' ∧
      st'.continuousRanges "score" = some (JNum.fin 0, JNum.fin 0) ∧
      (∀ row ∈ st'.allData, row "score" = JsVal.num 0) ∧
      st'.loadedColumns.contains "score" = true :=
  ensureColumnLoaded_numeric_failure_defaults c10Meta noFetch noFetch c10State
    "score" "array" rfl (by decide) rfl rfl rfl (by decide)

theorem getD_cons_set_perm (a : ℕ) :
    ∀ (t : List ℕ) (m : ℕ), m < t.length → (t.getD m 0 :: t.set m a).Perm (a :: t) := by
  intro t
  induction t with
  | nil => intro m hm; simp at hm
  | cons b s ih =>
    intro m hm
    cases m with
    | zero =>
      rw [List.getD_cons_zero, List.set_cons_zero]
      exact List.Perm.swap a b s
    | succ m =>
      rw [List.getD_cons_succ, List.set_cons_succ]
      have hm' : m < s.length := by simpa using hm
      have h1 : (s.getD m 0 :: b :: s.set m a).Perm (b :: s.getD m 0 :: s.set m a) :=
        List.Perm.swap b (s.getD m 0) (s.set m a)
      have h2 : (b :: s.getD m 0 :: s.set m a).Perm (b :: a :: s) :=
        List.Perm.cons b (ih m hm')
      have h3 : (b :: a :: s).Perm (a :: b :: s) := List.Perm.swap a b s
      exact (h1.trans h2).trans h3

theorem swapL_perm :
    ∀ (l : List ℕ) (i j : ℕ), i < l.length → j < l.length → (swapL l i j).Perm l := by
  intro l
  induction l with
  | nil => intro i j hi _; simp at hi
  | cons b t ih =>
    intro i j hi hj
    cases i with
    | zero =>
      cases j with
      | zero =>
        simp only [swapL, List.getD_cons_zero, List.set_cons_zero]
        exact List.Perm.refl _
      | succ m =>
        have hm : m < t.length := by simpa using hj
        rw [swapL, List.getD_cons_succ, List.set_cons_zero, List.getD_cons_zero,
          List.set_cons_succ]
        exact getD_cons_set_perm b t m hm
    | succ n =>
      cases j with
      | zero =>
        have hn : n < t.length := by simpa using hi
        rw [swapL, List.getD_cons_zero, List.set_cons_succ, List.getD_cons_succ,
          List.set_cons_zero]
        exact getD_cons_set_perm b t n hn
      | succ m =>
        have hn : n < t.length := by simpa using hi
        have hm : m < t.length := by simpa using hj
        rw [swapL, List.getD_cons_succ, List.set_cons_succ, List.getD_cons_succ,
          List.set_cons_succ]
        exact List.Perm.cons b (ih n m hn hm)

theorem swapL_length (l : List ℕ) (i j : ℕ) : (swapL l i j).length = l.length := by
  rw [swapL, List.length_set, List.length_set]

theorem shuffleLoop_perm (rand : ℕ → ℕ) :
    ∀ (fuel i : ℕ) (l : List ℕ),
      (∀ k, i ≤ k → k < i + fuel → k + rand k < l.length) →
      (shuffleLoop rand fuel i l).Perm l := by
  intro fuel
  induction fuel with
  | zero => intro i l _; exact List.Perm.refl _
  | succ f ih =>
    intro i l hr
    have hij : i + rand i < l.length := hr i (Nat.le_refl i) (by omega)
    have hi : i < l.length := by omega
    have hswap : (swapL l i (i + rand i)).Perm l := swapL_perm l i (i + rand i) hi hij
    have hrec : (shuffleLoop rand f (i + 1) (swapL l i (i + rand i))).Perm
        (swapL l i (i + rand i)) := by
      apply ih
      intro k hk1 hk2
      rw [swapL_length]
      exact hr k (by omega) (by omega)
    exact hrec.trans hswap

/-- C6. `sampleIndices` returns exactly
`min(floor(length * fraction), cap)` elements, each drawn from the input
with no duplicates, and returns the input unchanged (same order) whenever
the target covers it.  The hypotheses state the operating conditions of
the call site: the sample rate is clamped to at most `1` (src/app.js line
2316), the visible indices are duplicate-free (they are produced by
`updateFilter`), and `rand i` models `Math.floor(Math.random()*(n-i))`,
which always lies below `n - i`. -/
theorem sampleIndices_spec (visible : List ℕ) (rate : ℚ) (cap : ℕ) (rand : ℕ → ℕ)
    (hr1 : rate ≤ 1)
    (hnd : visible.Nodup)
    (hrand : ∀ i, i < min (Int.toNat ⌊(visible.length : ℚ) * rate⌋) cap →
      i + rand i < visible.length) :
    (sampleIndices visible rate cap rand).length
        = min (Int.toNat ⌊(visible.length : ℚ) * rate⌋) cap ∧
    (∀ x ∈ sampleIndices visible rate cap rand, x ∈ visible) ∧
    (sampleIndices visible rate cap rand).Nodup ∧
    (visible.length ≤ min (Int.toNat ⌊(visible.length : ℚ) * rate⌋) cap →
      sampleIndices visible rate cap rand = visible) := by
  set target := min (Int.toNat ⌊(visible.length : ℚ) * rate⌋) cap with htarget
  have htle : target ≤ visible.length := by
    have hfl : ⌊(visible.length : ℚ) * rate⌋ ≤ (visible.length : ℤ) := by
      calc ⌊(visible.length : ℚ) * rate⌋ ≤ ⌊(visible.length : ℚ) * 1⌋ := by
            apply Int.floor_le_floor
            apply mul_le_mul_of_nonneg_left hr1
            exact_mod_cast Nat.zero_le _
        _ = (visible.length : ℤ) := by rw [mul_one]; exact Int.floor_natCast _
    have : Int.toNat ⌊(visible.length : ℚ) * rate⌋ ≤ visible.length :=
      Int.toNat_le.mpr hfl
    omega
  by_cases hb : visible.length ≤ target
  · have hs : sampleIndices visible rate cap rand = visible := by
      rw [sampleIndices, ← htarget, if_pos hb]
    refine ⟨?_, ?_, ?_, fun _ => hs⟩
    · rw [hs]; omega
    · intro x hx; rw [hs] at hx; exact hx
    · rw [hs]; exact hnd
  · have hs : sampleIndices visible rate cap rand
        = (shuffleLoop rand target 0 visible).take target := by
      rw [sampleIndices, ← htarget, if_neg hb]
    have hperm : (shuffleLoop rand target 0 visible).Perm visible := by
      apply shuffleLoop_perm
      intro k hk1 hk2
      exact hrand k (by omega)
    have hlen : (shuffleLoop rand target 0 visible).length = visible.length :=
      hperm.length_eq
    refine ⟨?_, ?_, ?_, fun h => absurd h hb⟩
    · rw [hs, List.length_take, hlen]
      omega
    · intro x hx
      rw [hs] at hx
      exact hperm.mem_iff.mp (List.take_subset _ _ hx)
    · rw [hs]
      exact List.Nodup.sublist (List.take_sublist _ _) (hperm.nodup_iff.mpr hnd)

/-- Witness for C6: sampling 4 duplicate-free indices at rate `1/2` with
cap `100` returns 2 distinct input elements, and at rate `1` the input
comes back unchanged. -/
theorem sampleIndices_spec_witness :
    ((sampleIndices [10, 20, 30, 40] (1 / 2) 100 (fun _ => 1)).length
        = min (Int.toNat ⌊((4 : ℕ) : ℚ) * (1 / 2)⌋) 100 ∧
      (∀ x ∈ sampleIndices [10, 20, 30, 40] (1 / 2) 100 (fun _ => 1),
        x ∈ [10, 20, 30, 40]) ∧
      (sampleIndices [10, 20, 30, 40] (1 / 2) 100 (fun _ => 1)).Nodup) ∧
    sampleIndices [10, 20, 30, 40] 1 100 (fun _ => 0) = [10, 20, 30, 40] := by
  have h1 := sampleIndices_spec [10, 20, 30, 40] (1 / 2) 100 (fun _ => 1)
    (by norm_num) (by decide)
    (by
      intro i hi
      simp only [List.length_cons, List.length_nil] at hi ⊢
      norm_num at hi
      omega)
  have h2 := sampleIndices_spec [10, 20, 30, 40] 1 100 (fun _ => 0)
    (le_refl 1) (by decide)
    (by
      intro i hi
      simp only [List.length_cons, List.length_nil] at hi ⊢
      norm_num at hi
      omega)
  refine ⟨⟨h1.1, h1.2.1, h1.2.2.1⟩, h2.2.2.2 ?_⟩
  simp only [List.length_cons, List.length_nil]
  norm_num

/-- Counterexample to C7 as stated: `loadCategoricalColumn` performs no
bounds check (src/app.js lines 772-775) and cannot fail — its result type
here is a plain list, mirroring that the source throws nothing on an
out-of-range code.  With codes `[0, 5]` and the single category `"A"`,
code `5` indexes outside the categories range, yet the call returns
normally with an `undefined` second entry instead of failing with a
`DecodeError`. -/
theorem loadCategoricalColumn_no_decode_error :
    loadCategoricalColumn [0, 5] ["A"] = [some "A", none] := by
  decide

/-- C7 (amended).  `loadCategoricalColumn` decodes
`result[i] = categories[codes[i]]`: an in-range code yields the matching
category string, and an out-of-range code (negative or at least the number
of categories) yields an `undefined` entry — no `DecodeError` is raised,
the decoder is total. -/
theorem loadCategoricalColumn_decodes (codes : List ℤ) (cats : List String) (i : ℕ)
    (hi : i < codes.length) :
    (loadCategoricalColumn codes cats).length = codes.length ∧
    ((0 ≤ codes.getD i 0 ∧ (codes.getD i 0).toNat < cats.length →
      (loadCategoricalColumn codes cats).getD i none
        = some (cats.getD (codes.getD i 0).toNat "")) ∧
    (codes.getD i 0 < 0 ∨ cats.length ≤ (codes.getD i 0).toNat →
      (loadCategoricalColumn codes cats).getD i none = none)) := by
  have hmap : (loadCategoricalColumn codes cats).getD i none
      = if codes.getD i 0 < 0 then none else cats.get? (codes.getD i 0).toNat := by
    rw [loadCategoricalColumn, List.getD_eq_getElem?_getD, List.getElem?_map,
      List.getElem?_eq_getElem hi, List.getD_eq_getElem _ _ hi]
    rfl
  refine ⟨by rw [loadCategoricalColumn, List.length_map], ?_, ?_⟩
  · rintro ⟨hpos, hlt⟩
    rw [hmap, if_neg (not_lt.mpr hpos), List.get?_eq_getElem?,
      List.getElem?_eq_getElem hlt, List.getD_eq_getElem _ _ hlt]
  · intro hout
    rcases hout with hneg | hge
    · rw [hmap, if_pos hneg]
    · by_cases hneg : codes.getD i 0 < 0
      · rw [hmap, if_pos hneg]
      · rw [hmap, if_neg hneg, List.get?_eq_getElem?, List.getElem?_eq_none hge]

/-- Witness for C7 (amended): codes `[1, -1]` over categories `["x","y"]`
decode to `y` and an `undefined` entry. -/
theorem loadCategoricalColumn_decodes_witness :
    ((loadCategoricalColumn [1, -1] ["x", "y"]).length = 2 ∧
      ((0 ≤ ([(1 : ℤ), -1].getD 0 0) ∧ (([(1 : ℤ), -1].getD 0 0)).toNat < 2 →
        (loadCategoricalColumn [1, -1] ["x", "y"]).getD 0 none
          = some (["x", "y"].getD (([(1 : ℤ), -1].getD 0 0)).toNat "")) ∧
      (([(1 : ℤ), -1].getD 0 0) < 0 ∨ 2 ≤ (([(1 : ℤ), -1].getD 0 0)).toNat →
        (loadCategoricalColumn [1, -1] ["x", "y"]).getD 0 none = none))) ∧
    loadCategoricalColumn [1, -1] ["x", "y"] = [some "y", none] :=
  ⟨loadCategoricalColumn_decodes [1, -1] ["x", "y"] 0 (by decide), by decide⟩

/-- Coordinate source of the C8 counterexample: an obsm embedding `E`
with named column `x`. -/
def csC8 : CoordSource := ⟨"obsm", "", "E", 0, some "x"⟩

/-- Counterexample to C8 as stated: on the by-column-name path
(src/app.js lines 1202-1213) `loadCoordinateValues` returns the fetched
array at its own length with no padding or truncation; with a stored
array of length 3 and `nCells = 5` the result has length 3, not 5.  Only
the chunk-assembly path pads or truncates. -/
theorem loadCoordinateValues_length_mismatch :
    loadCoordinateValues (fun _ => none)
        (fun e c => if e = "E" ∧ c = "x" then some [1, 2, 3] else none)
        (fun _ _ => none) (fun _ _ _ => none) csC8 5
      = [1, 2, 3] ∧
    ([(1 : ℚ), 2, 3]).length ≠ 5 := by
  constructor
  · rfl
  · decide

theorem padToLength_length (l : List ℚ) (n : ℕ) : (padToLength l n).length = n := by
  rw [padToLength]
  by_cases h : n ≤ l.length
  · rw [if_pos h, List.length_take]
    omega
  · rw [if_neg h, List.length_append, List.length_replicate]
    omega

theorem chunkLoop_join (fc : ℕ → Option (List ℚ)) (chunks : List (List ℚ))
    (hfc : ∀ k, fc k = chunks.get? k) (hne : ∀ c ∈ chunks, c ≠ []) (nCells : ℕ) :
    ∀ (fuel k : ℕ) (acc : List ℚ), nCells + 1 ≤ fuel + acc.length →
      ∃ t, acc ++ (chunks.drop k).flatten = chunkLoop fc nCells fuel k acc ++ t ∧
        (t = [] ∨ nCells ≤ (chunkLoop fc nCells fuel k acc).length) := by
  intro fuel
  induction fuel with
  | zero =>
    intro k acc hf
    refine ⟨(chunks.drop k).flatten, rfl, Or.inr ?_⟩
    show nCells ≤ acc.length
    omega
  | succ f ih =>
    intro k acc hf
    by_cases hstop : nCells ≤ acc.length
    · have hunf : chunkLoop fc nCells (f + 1) k acc = acc := by
        rw [chunkLoop, if_pos hstop]
      rw [hunf]
      exact ⟨(chunks.drop k).flatten, rfl, Or.inr hstop⟩
    · cases hck : fc k with
      | none =>
        have hunf : chunkLoop fc nCells (f + 1) k acc = acc := by
          rw [chunkLoop, if_neg hstop, hck]
        have hklen : chunks.length ≤ k := by
          have := hfc k
          rw [hck] at this
          exact List.get?_eq_none.mp this.symm
        have hdrop : chunks.drop k = [] := List.drop_eq_nil_of_le hklen
        rw [hunf, hdrop]
        exact ⟨[], by simp, Or.inl rfl⟩
      | some c =>
        have hget : chunks.get? k = some c := by rw [← hfc k]; exact hck
        have hk : k < chunks.length := by
          by_contra hcon
          rw [List.get?_eq_none.mpr (Nat.le_of_not_lt hcon)] at hget
          exact Option.noConfusion hget
        have hck2 : chunks[k] = c := by
          have := hget
          rw [List.get?_eq_getElem?, List.getElem?_eq_getElem hk] at this
          exact Option.some.inj this
        have hcne : c ≠ [] := hne c (hck2 ▸ List.getElem_mem hk)
        have hclen : 0 < c.length := List.length_pos.mpr hcne
        have hunf : chunkLoop fc nCells (f + 1) k acc
            = chunkLoop fc nCells f (k + 1) (acc ++ c) := by
          rw [chunkLoop, if_neg hstop, hck]
        have hdrop : chunks.drop k = c :: chunks.drop (k + 1) := by
          rw [List.drop_eq_getElem_cons hk, hck2]
        obtain ⟨t, ht1, ht2⟩ := ih (k + 1) (acc ++ c)
          (by rw [List.length_append]; omega)
        refine ⟨t, ?_, ?_⟩
        · rw [hunf, hdrop, List.flatten_cons, ← List.append_assoc]
          exact ht1
        · rw [hunf]
          exact ht2

/-- C8 (amended).  On the chunk-assembly path — an obsm source whose
by-name load (when a column name is present) and 2D-array load both fail —
`loadCoordinateValues` concatenates the available chunk files in chunk
order and pads the assembly with zeros, or truncates it, to exactly
`nCells` (an entirely empty assembly yields `nCells` zeros), never
throwing; so on this path the result always has length `nCells`.  The
other paths (obs column, by-name, 2D slice) return the fetched array at
its own length, which is the correction to the original claim.  Chunks
are assumed non-empty, as zarr chunk files are; an empty chunk would make
the source's `while` loop spin forever. -/
theorem loadCoordinateValues_chunk_assembly
    (fetchObs : String → Option (List ℚ))
    (fetchByName : String → String → Option (List ℚ))
    (fetch2D : String → ℕ → Option (List ℚ))
    (fetchChunk : String → ℕ → ℕ → Option (List ℚ))
    (cs : CoordSource) (nCells : ℕ) (chunks : List (List ℚ))
    (hsrc : cs.source = "obsm")
    (hname : ∀ cn, cs.columnName = some cn → fetchByName cs.embedding cn = none)
    (h2d : fetch2D cs.embedding cs.columnIndex = none)
    (hch : ∀ k, fetchChunk cs.embedding cs.columnIndex k = chunks.get? k)
    (hne : ∀ c ∈ chunks, c ≠ []) :
    loadCoordinateValues fetchObs fetchByName fetch2D fetchChunk cs nCells
      = padToLength chunks.flatten nCells ∧
    (loadCoordinateValues fetchObs fetchByName fetch2D fetchChunk cs nCells).length
      = nCells := by
  have hmain : loadCoordinateValues fetchObs fetchByName fetch2D fetchChunk cs nCells
      = padToLength chunks.flatten nCells := by
    have hres : loadCoordinateValues fetchObs fetchByName fetch2D fetchChunk cs nCells
        = (if nCells ≤ (chunkLoop (fetchChunk cs.embedding cs.columnIndex) nCells
              (nCells + 1) 0 []).length
          then (chunkLoop (fetchChunk cs.embedding cs.columnIndex) nCells
              (nCells + 1) 0 []).take nCells
          else if 0 < (chunkLoop (fetchChunk cs.embedding cs.columnIndex) nCells
              (nCells + 1) 0 []).length
          then (chunkLoop (fetchChunk cs.embedding cs.columnIndex) nCells
              (nCells + 1) 0 []) ++ List.replicate (nCells -
                (chunkLoop (fetchChunk cs.embedding cs.columnIndex) nCells
                  (nCells + 1) 0 []).length) 0
          else List.replicate nCells 0) := by
      rw [loadCoordinateValues]
      rw [hsrc]
      rw [if_neg (by decide : ¬ ("obsm" : String) = "obs"), if_pos rfl]
      cases hcn : cs.columnName with
      | none =>
        dsimp only
        rw [h2d]
      | some cn =>
        dsimp only
        rw [hname cn hcn]
        dsimp only
        rw [h2d]
    obtain ⟨t, ht1, ht2⟩ := chunkLoop_join (fetchChunk cs.embedding cs.columnIndex)
      chunks hch hne nCells (nCells + 1) 0 [] (by omega)
    rw [List.drop_zero, List.nil_append] at ht1
    set result := chunkLoop (fetchChunk cs.embedding cs.columnIndex) nCells
      (nCells + 1) 0 [] with hresult
    rcases ht2 with hte | htl
    · subst hte
      rw [List.append_nil] at ht1
      rw [hres, ← ht1, padToLength]
      by_cases hb : nCells ≤ chunks.flatten.length
      · rw [if_pos hb, if_pos hb]
      · rw [if_neg hb, if_neg hb]
        by_cases hz : 0 < chunks.flatten.length
        · rw [if_pos hz]
        · have hfe : chunks.flatten = [] := List.length_eq_zero.mp (by omega)
          rw [if_neg hz, hfe]
          simp
    · rw [hres, if_pos htl, padToLength, ht1]
      have hjl : nCells ≤ (result ++ t).length := by
        rw [List.length_append]
        omega
      rw [if_pos hjl, List.take_append_of_le_length htl]
  refine ⟨hmain, ?_⟩
  rw [hmain]
  exact padToLength_length _ _

/-- Chunk store of the C8 witness: two chunks `[1,2]` and `[3,4]` for
embedding `E`, dimension 0. -/
def c8Chunks : List (List ℚ) := [[1, 2], [3, 4]]

def c8FetchChunk : String → ℕ → ℕ → Option (List ℚ) :=
  fun e i k => if e = "E" ∧ i = 0 then c8Chunks.get? k else none

def csC8w : CoordSource := ⟨"obsm", "", "E", 0, none⟩

/-- Witness for C8 (amended): assembling chunks `[1,2]` and `[3,4]` for
`nCells = 3` yields the truncated `[1,2,3]` of length 3. -/
theorem loadCoordinateValues_chunk_assembly_witness :
    (loadCoordinateValues (fun _ => none) (fun _ _ => none) (fun _ _ => none)
        c8FetchChunk csC8w 3
      = padToLength c8Chunks.flatten 3 ∧
    (loadCoordinateValues (fun _ => none) (fun _ _ => none) (fun _ _ => none)
        c8FetchChunk csC8w 3).length = 3) ∧
    loadCoordinateValues (fun _ => none) (fun _ _ => none) (fun _ _ => none)
        c8FetchChunk csC8w 3 = [1, 2, 3] :=
  ⟨loadCoordinateValues_chunk_assembly (fun _ => none) (fun _ _ => none)
      (fun _ _ => none) c8FetchChunk csC8w 3 c8Chunks rfl
      (fun cn hcn => Option.noConfusion hcn) rfl (fun k => rfl) (by decide),
    rfl⟩
